import Mathlib

/-!
# Verification of the IOHexperimenter core against its specification

This file gives a shallow embedding of the core routines of the
IOHexperimenter repository (CEC transformation utilities, static-table
loaders, the per-function bias table, the PBO `LeadingOnesDummy2`
problem constructor, the EAH `Scale` discretization maps, and the
server query schema) and proves or refutes the specification's claims
about them.

Modelling conventions:
* C++ `double` is modelled as `ℚ` for the CEC/PBO code (all the claims
  under scrutiny are about the structure of the arithmetic, not about
  floating-point rounding) and as `ℝ` for the logarithmic `Scale`
  variants, whose mathematics is inherently real.
* `std::vector<double>` is modelled as `List ℚ`; the bounds-checked
  accessor `.at(i)` is modelled by `l[i]?`, and a routine that can hit
  an out-of-range access (which throws in C++) returns `Option`,
  with `none` standing for the thrown `std::out_of_range`.
* A whitespace-separated numeric data file is modelled by the list of
  numeric tokens it contains; a file that could not be opened is
  modelled as `none` (reads from a failed stream behave like EOF,
  which is exactly what the C++ code does after `perror`).
* C++ `int` parameters that are used as sizes/loop bounds are modelled
  as `ℕ` where the code only ever passes non-negative values, and as
  `ℤ` where the sign matters for the control flow being verified.
-/

namespace IOHExp

namespace CecUtils

/-- Loop body of `CecUtils::shiftfunc`: for `k` more iterations starting
at index `i`, do `x.at(i) = x.at(i) - Os.at(i)`.  `none` models a thrown
`std::out_of_range` from `.at`. -/
def shiftLoop (Os : List ℚ) : ℕ → ℕ → List ℚ → Option (List ℚ)
  | 0, _, x => some x
  | k + 1, i, x => do
    let xi ← x[i]?
    let oi ← Os[i]?
    shiftLoop Os k (i + 1) (x.set i (xi - oi))

/-- `CecUtils::shiftfunc(x, Os, nx)`: subtract `Os` elementwise from the
first `nx` coordinates of `x`. -/
def shiftfunc (x Os : List ℚ) (nx : ℕ) : Option (List ℚ) :=
  shiftLoop Os nx 0 x

/-- The unconditional scaling loop inside `CecUtils::sr_func`:
`x.at(i) = x.at(i) * sh_rate` for `i < nx`. -/
def scaleLoop (sh_rate : ℚ) : ℕ → ℕ → List ℚ → Option (List ℚ)
  | 0, _, x => some x
  | k + 1, i, x => do
    let xi ← x[i]?
    scaleLoop sh_rate k (i + 1) (x.set i (xi * sh_rate))

/-- Inner loop of `CecUtils::rotatefunc`: accumulate
`cacheX.at(j) * Mr.at(i*nx + j)` into the row value, for `k` more
values of `j`. -/
def rotRow (cacheX Mr : List ℚ) (nx i : ℕ) : ℕ → ℕ → ℚ → Option ℚ
  | 0, _, acc => some acc
  | k + 1, j, acc => do
    let cj ← cacheX[j]?
    let mij ← Mr[i * nx + j]?
    rotRow cacheX Mr nx i k (j + 1) (acc + cj * mij)

/-- Outer loop of `CecUtils::rotatefunc`: for each row `i`, the C++ code
first writes `x.at(i) = 0` (a bounds-checked access, modelled by the
discarded `x[i]?`), then accumulates the row product and stores it. -/
def rotOuter (cacheX Mr : List ℚ) (nx : ℕ) : ℕ → ℕ → List ℚ → Option (List ℚ)
  | 0, _, x => some x
  | k + 1, i, x => do
    let _ ← x[i]?
    let v ← rotRow cacheX Mr nx i nx 0 0
    rotOuter cacheX Mr nx k (i + 1) (x.set i v)

/-- `CecUtils::rotatefunc(x, Mr, nx)`: `cacheX` is a copy of `x` taken at
entry; each of the first `nx` coordinates of `x` is replaced by the dot
product of row `i` of `Mr` with `cacheX`. -/
def rotatefunc (x Mr : List ℚ) (nx : ℕ) : Option (List ℚ) :=
  rotOuter x Mr nx nx 0 x

/-- `CecUtils::sr_func(x, Os, Mr, sh_rate, s_flag, r_flag, nx)`:
optional shift, unconditional scaling, optional rotation, in this
order. -/
def sr_func (x Os Mr : List ℚ) (sh_rate : ℚ) (s_flag r_flag : Bool)
    (nx : ℕ) : Option (List ℚ) :=
  (if s_flag then shiftfunc x Os nx else some x).bind fun x1 =>
    (scaleLoop sh_rate nx 0 x1).bind fun x2 =>
      if r_flag then rotatefunc x2 Mr nx else some x2

/-- The value the specification predicts for coordinate `j` after the
shift-and-scale phase of `sr_func`. -/
def shiftScaled (x Os : List ℚ) (sh_rate : ℚ) (s_flag : Bool) (j : ℕ) : ℚ :=
  (x.getD j 0 - if s_flag then Os.getD j 0 else 0) * sh_rate

/-- The value the specification predicts for coordinate `i` of the final
result of `sr_func` when rotation is enabled: the matrix-vector product
of row `i` of `Mr` with the shifted-and-scaled vector. -/
def rotatedCoord (x Os Mr : List ℚ) (sh_rate : ℚ) (s_flag : Bool)
    (nx i : ℕ) : ℚ :=
  ∑ j ∈ Finset.range nx, shiftScaled x Os sh_rate s_flag j * Mr.getD (i * nx + j) 0

theorem shiftLoop_spec (Os : List ℚ) :
    ∀ (k i : ℕ) (x : List ℚ), i + k ≤ x.length → i + k ≤ Os.length →
    ∃ y, shiftLoop Os k i x = some y ∧ y.length = x.length ∧
      (∀ m, m < i ∨ i + k ≤ m → y[m]? = x[m]?) ∧
      (∀ m, i ≤ m → m < i + k → y[m]? = some (x.getD m 0 - Os.getD m 0)) := by
  intro k
  induction k with
  | zero =>
    intro i x _ _
    refine ⟨x, rfl, rfl, fun m _ => rfl, ?_⟩
    intro m him hm
    exact absurd hm (by omega)
  | succ k ih =>
    intro i x hx hOs
    have hix : i < x.length := by omega
    have hiOs : i < Os.length := by omega
    obtain ⟨y, hy, hylen, hout, hin⟩ :=
      ih (i + 1) (x.set i (x[i] - Os[i]))
        (by simpa using by omega) (by omega)
    refine ⟨y, ?_, by simpa using hylen, ?_, ?_⟩
    · simp only [shiftLoop, List.getElem?_eq_getElem hix,
        List.getElem?_eq_getElem hiOs, Option.bind_eq_bind,
        Option.some_bind]
      exact hy
    · intro m hm
      have hmi : m ≠ i := by omega
      have := hout m (by omega)
      rw [this, List.getElem?_set_ne (by omega)]
    · intro m him hm
      rcases Nat.eq_or_lt_of_le him with heq | hlt
      · rw [← heq]
        have := hout i (by omega)
        rw [this, List.getElem?_set_self hix]
        have hx1 : x.getD i 0 = x[i] := by
          simp [List.getD_eq_getElem?_getD, List.getElem?_eq_getElem hix]
        have hx2 : Os.getD i 0 = Os[i] := by
          simp [List.getD_eq_getElem?_getD, List.getElem?_eq_getElem hiOs]
        rw [hx1, hx2]
      · have := hin m (by omega) (by omega)
        rw [this]
        have hset : (x.set i (x[i] - Os[i])).getD m 0 = x.getD m 0 := by
          simp [List.getD_eq_getElem?_getD, List.getElem?_set_ne (by omega : i ≠ m)]
        rw [hset]

theorem scaleLoop_spec (sh_rate : ℚ) :
    ∀ (k i : ℕ) (x : List ℚ), i + k ≤ x.length →
    ∃ y, scaleLoop sh_rate k i x = some y ∧ y.length = x.length ∧
      (∀ m, m < i ∨ i + k ≤ m → y[m]? = x[m]?) ∧
      (∀ m, i ≤ m → m < i + k → y[m]? = some (x.getD m 0 * sh_rate)) := by
  intro k
  induction k with
  | zero =>
    intro i x _
    refine ⟨x, rfl, rfl, fun m _ => rfl, ?_⟩
    intro m him hm
    exact absurd hm (by omega)
  | succ k ih =>
    intro i x hx
    have hix : i < x.length := by omega
    obtain ⟨y, hy, hylen, hout, hin⟩ :=
      ih (i + 1) (x.set i (x[i] * sh_rate)) (by simpa using by omega)
    refine ⟨y, ?_, by simpa using hylen, ?_, ?_⟩
    · simp only [scaleLoop, List.getElem?_eq_getElem hix,
        Option.bind_eq_bind, Option.some_bind]
      exact hy
    · intro m hm
      have := hout m (by omega)
      rw [this, List.getElem?_set_ne (by omega)]
    · intro m him hm
      rcases Nat.eq_or_lt_of_le him with heq | hlt
      · rw [← heq]
        have := hout i (by omega)
        rw [this, List.getElem?_set_self hix]
        have hx1 : x.getD i 0 = x[i] := by
          simp [List.getD_eq_getElem?_getD, List.getElem?_eq_getElem hix]
        rw [hx1]
      · have := hin m (by omega) (by omega)
        rw [this]
        have hset : (x.set i (x[i] * sh_rate)).getD m 0 = x.getD m 0 := by
          simp [List.getD_eq_getElem?_getD, List.getElem?_set_ne (by omega : i ≠ m)]
        rw [hset]

theorem rotRow_spec (cacheX Mr : List ℚ) (nx i : ℕ) :
    ∀ (k j : ℕ) (acc : ℚ), j + k ≤ cacheX.length →
    i * nx + j + k ≤ Mr.length →
    rotRow cacheX Mr nx i k j acc =
      some (acc + ∑ m ∈ Finset.range k,
        cacheX.getD (j + m) 0 * Mr.getD (i * nx + (j + m)) 0) := by
  intro k
  induction k with
  | zero => intro j acc _ _; simp [rotRow]
  | succ k ih =>
    intro j acc hc hm
    have hj : j < cacheX.length := by omega
    have hmj : i * nx + j < Mr.length := by omega
    simp only [rotRow, List.getElem?_eq_getElem hj,
      List.getElem?_eq_getElem hmj, Option.bind_eq_bind, Option.some_bind]
    rw [ih (j + 1) (acc + cacheX[j] * Mr[i * nx + j]) (by omega) (by omega)]
    congr 1
    rw [Finset.sum_range_succ']
    have hsum : ∀ m ∈ Finset.range k,
        cacheX.getD (j + 1 + m) 0 * Mr.getD (i * nx + (j + 1 + m)) 0 =
        cacheX.getD (j + (m + 1)) 0 * Mr.getD (i * nx + (j + (m + 1))) 0 := by
      intro m _
      rw [show j + 1 + m = j + (m + 1) by omega]
    rw [Finset.sum_congr rfl hsum]
    have h1 : cacheX.getD (j + 0) 0 = cacheX[j] := by
      simp [List.getD_eq_getElem?_getD, List.getElem?_eq_getElem hj]
    have h2 : Mr.getD (i * nx + (j + 0)) 0 = Mr[i * nx + j] := by
      simp [List.getD_eq_getElem?_getD, List.getElem?_eq_getElem hmj]
    rw [h1, h2]
    ring

/-- If the very first matrix access of a row is already out of range, the
row loop fails immediately. -/
theorem rotRow_fail_now (cacheX Mr : List ℚ) (nx i : ℕ) (k j : ℕ) (acc : ℚ)
    (hk : 1 ≤ k) (hj : j < cacheX.length) (hm : Mr.length ≤ i * nx + j) :
    rotRow cacheX Mr nx i k j acc = none := by
  cases k with
  | zero => omega
  | succ k =>
    simp [rotRow, List.getElem?_eq_getElem hj, List.getElem?_eq_none hm]

/-- If the matrix runs out strictly inside the fuel of the row loop, the
loop hits the first out-of-range access and fails. -/
theorem rotRow_fail (cacheX Mr : List ℚ) (nx i : ℕ) :
    ∀ (k j : ℕ) (acc : ℚ), j + k ≤ cacheX.length →
    i * nx + j ≤ Mr.length → Mr.length < i * nx + j + k →
    rotRow cacheX Mr nx i k j acc = none := by
  intro k
  induction k with
  | zero => intro j acc _ hle hlt; exact absurd hlt (by omega)
  | succ k ih =>
    intro j acc hc hle hlt
    have hj : j < cacheX.length := by omega
    rcases Nat.eq_or_lt_of_le hle with heq | hmlt
    · exact rotRow_fail_now cacheX Mr nx i (k + 1) j acc (by omega) hj (by omega)
    · simp only [rotRow, List.getElem?_eq_getElem hj,
        List.getElem?_eq_getElem hmlt, Option.bind_eq_bind, Option.some_bind]
      exact ih (j + 1) _ (by omega) (by omega) (by omega)

theorem rotOuter_spec (cacheX Mr : List ℚ) (nx : ℕ)
    (hc : nx ≤ cacheX.length) (hm : nx * nx ≤ Mr.length) :
    ∀ (k i : ℕ) (x : List ℚ), i + k ≤ nx → i + k ≤ x.length →
    ∃ y, rotOuter cacheX Mr nx k i x = some y ∧ y.length = x.length ∧
      (∀ m, m < i ∨ i + k ≤ m → y[m]? = x[m]?) ∧
      (∀ m, i ≤ m → m < i + k → y[m]? =
        some (∑ jj ∈ Finset.range nx,
          cacheX.getD jj 0 * Mr.getD (m * nx + jj) 0)) := by
  intro k
  induction k with
  | zero =>
    intro i x _ _
    refine ⟨x, rfl, rfl, fun m _ => rfl, ?_⟩
    intro m him hm2
    exact absurd hm2 (by omega)
  | succ k ih =>
    intro i x hnx hx
    have hix : i < x.length := by omega
    have hrow : rotRow cacheX Mr nx i nx 0 0 =
        some (0 + ∑ m ∈ Finset.range nx,
          cacheX.getD (0 + m) 0 * Mr.getD (i * nx + (0 + m)) 0) :=
      rotRow_spec cacheX Mr nx i nx 0 0 (by omega)
        (by have : (i + 1) * nx ≤ nx * nx := Nat.mul_le_mul_right nx (by omega)
            calc i * nx + 0 + nx = (i + 1) * nx := by ring
            _ ≤ nx * nx := this
            _ ≤ Mr.length := hm)
    set v : ℚ := ∑ jj ∈ Finset.range nx,
      cacheX.getD jj 0 * Mr.getD (i * nx + jj) 0 with hv
    have hrow2 : rotRow cacheX Mr nx i nx 0 0 = some v := by
      rw [hrow, hv]
      congr 1
      rw [zero_add]
      simp only [Nat.zero_add]
    obtain ⟨y, hy, hylen, hout, hin⟩ :=
      ih (i + 1) (x.set i v) (by omega) (by simpa using by omega)
    refine ⟨y, ?_, by simpa using hylen, ?_, ?_⟩
    · simp only [rotOuter, List.getElem?_eq_getElem hix,
        Option.bind_eq_bind, Option.some_bind, hrow2]
      exact hy
    · intro m hm2
      have := hout m (by omega)
      rw [this, List.getElem?_set_ne (by omega)]
    · intro m him hm2
      rcases Nat.eq_or_lt_of_le him with heq | hlt
      · rw [← heq]
        have := hout i (by omega)
        rw [this, List.getElem?_set_self hix]
      · have := hin m (by omega) (by omega)
        rw [this]

/-- If the matrix is too short for the rows the outer loop still has to
process, the rotation fails with an out-of-range access. -/
theorem rotOuter_fail (cacheX Mr : List ℚ) (nx : ℕ)
    (hc : nx ≤ cacheX.length) :
    ∀ (k i : ℕ) (x : List ℚ), 1 ≤ k → i + k ≤ x.length →
    Mr.length < (i + k) * nx →
    rotOuter cacheX Mr nx k i x = none := by
  intro k
  induction k with
  | zero => intro i x hk _ _; omega
  | succ k ih =>
    intro i x _ hx hm
    have hix : i < x.length := by omega
    by_cases hrow : (i + 1) * nx ≤ Mr.length
    · have hk1 : 1 ≤ k := by
        rcases Nat.eq_zero_or_pos k with rfl | h
        · exact absurd hm (not_lt.mpr hrow)
        · exact h
      have hrows : rotRow cacheX Mr nx i nx 0 0 =
          some (0 + ∑ m ∈ Finset.range nx,
            cacheX.getD (0 + m) 0 * Mr.getD (i * nx + (0 + m)) 0) :=
        rotRow_spec cacheX Mr nx i nx 0 0 (by omega)
          (by calc i * nx + 0 + nx = (i + 1) * nx := by ring
              _ ≤ Mr.length := hrow)
      simp only [rotOuter, List.getElem?_eq_getElem hix,
        Option.bind_eq_bind, Option.some_bind, hrows]
      exact ih (i + 1) _ hk1 (by simpa using by omega) (by
        have hprod : (i + 1 + k) * nx = (i + (k + 1)) * nx := by ring
        omega)
    · have hfail : rotRow cacheX Mr nx i nx 0 0 = none := by
        have hnx : 0 < nx := by
          rcases Nat.eq_zero_or_pos nx with rfl | h
          · exact absurd hm (by omega)
          · exact h
        by_cases hle : i * nx ≤ Mr.length
        · exact rotRow_fail cacheX Mr nx i nx 0 0 (by omega) (by omega)
            (by push_neg at hrow
                calc Mr.length < (i + 1) * nx := hrow
                _ = i * nx + 0 + nx := by ring)
        · exact rotRow_fail_now cacheX Mr nx i nx 0 0 (by omega) (by omega)
            (by omega)
      simp [rotOuter, List.getElem?_eq_getElem hix, hfail]

/-- If `x` is long enough but the shift table runs out strictly before
`nx`, the shift loop hits the first out-of-range access and fails. -/
theorem shiftLoop_fail (Os : List ℚ) :
    ∀ (k i : ℕ) (x : List ℚ), i + k ≤ x.length → i ≤ Os.length →
    Os.length < i + k → shiftLoop Os k i x = none := by
  intro k
  induction k with
  | zero => intro i x _ hle hlt; exact absurd hlt (by omega)
  | succ k ih =>
    intro i x hx hle hlt
    have hix : i < x.length := by omega
    rcases Nat.eq_or_lt_of_le hle with heq | hilt
    · simp [shiftLoop, List.getElem?_eq_getElem hix,
        List.getElem?_eq_none (by omega : Os.length ≤ i)]
    · simp only [shiftLoop, List.getElem?_eq_getElem hix,
        List.getElem?_eq_getElem hilt, Option.bind_eq_bind, Option.some_bind]
      exact ih (i + 1) _ (by simpa using by omega) (by omega) (by omega)

/-- Full success characterization of `sr_func`: with all tables long
enough, the result exists and each of the first `nx` coordinates is the
shift-scale-rotate composite predicted by the specification, while the
trailing coordinates of `x` are untouched. -/
theorem sr_func_spec (x Os Mr : List ℚ) (sh_rate : ℚ) (s_flag r_flag : Bool)
    (nx : ℕ) (hx : nx ≤ x.length) (hOs : s_flag = true → nx ≤ Os.length)
    (hMr : r_flag = true → nx * nx ≤ Mr.length) :
    ∃ y, sr_func x Os Mr sh_rate s_flag r_flag nx = some y ∧
      y.length = x.length ∧
      (∀ i, i < nx → y[i]? =
        some (if r_flag then rotatedCoord x Os Mr sh_rate s_flag nx i
              else shiftScaled x Os sh_rate s_flag i)) ∧
      (∀ m, nx ≤ m → y[m]? = x[m]?) := by
  obtain ⟨x1, hx1eq, hx1len, hx1out, hx1in⟩ :
      ∃ x1, (if s_flag then shiftfunc x Os nx else some x) = some x1 ∧
        x1.length = x.length ∧ (∀ m, nx ≤ m → x1[m]? = x[m]?) ∧
        (∀ m, m < nx →
          x1.getD m 0 = x.getD m 0 - if s_flag then Os.getD m 0 else 0) := by
    cases s_flag with
    | false => exact ⟨x, rfl, rfl, fun m _ => rfl, fun m _ => by simp⟩
    | true =>
      obtain ⟨y, hy, hylen, hout, hin⟩ :=
        shiftLoop_spec Os nx 0 x (by omega) (by simpa using hOs rfl)
      refine ⟨y, ?_, hylen, fun m hm => hout m (by omega), fun m hm => ?_⟩
      · simpa [shiftfunc] using hy
      · have := hin m (by omega) (by omega)
        simp [List.getD_eq_getElem?_getD, this]
  obtain ⟨x2, hx2eq, hx2len, hx2out, hx2in⟩ :=
    scaleLoop_spec sh_rate nx 0 x1 (by omega)
  have hx2coord : ∀ m, m < nx →
      x2[m]? = some (shiftScaled x Os sh_rate s_flag m) := by
    intro m hm
    have := hx2in m (by omega) (by omega)
    rw [this, hx1in m hm]
    rfl
  have hx2getD : ∀ m, m < nx → x2.getD m 0 = shiftScaled x Os sh_rate s_flag m := by
    intro m hm
    simp [List.getD_eq_getElem?_getD, hx2coord m hm]
  cases r_flag with
  | false =>
    refine ⟨x2, ?_, by omega, ?_, ?_⟩
    · simp only [sr_func, Option.bind_eq_bind, hx1eq, Option.some_bind,
        hx2eq, Bool.false_eq_true, if_false]
    · intro i hi
      simpa using hx2coord i hi
    · intro m hm
      rw [hx2out m (by omega), hx1out m hm]
  | true =>
    obtain ⟨y, hyeq, hylen, hyout, hyin⟩ :=
      rotOuter_spec x2 Mr nx (by omega) (hMr rfl) nx 0 x2 (by omega) (by omega)
    refine ⟨y, ?_, by omega, ?_, ?_⟩
    · simp only [sr_func, Option.bind_eq_bind, hx1eq, Option.some_bind,
        hx2eq, if_true]
      exact hyeq
    · intro i hi
      have := hyin i (by omega) (by omega)
      rw [this]
      simp only [if_true]
      congr 1
      unfold rotatedCoord
      refine Finset.sum_congr rfl ?_
      intro j hj
      rw [hx2getD j (Finset.mem_range.mp hj)]
    · intro m hm
      rw [hyout m (by omega), hx2out m (by omega), hx1out m hm]

/-- If the shift flag is set, `x` is long enough, and the shift table is
shorter than `nx`, then `sr_func` fails with an out-of-range access. -/
theorem sr_func_shift_fail (x Os Mr : List ℚ) (sh_rate : ℚ) (r_flag : Bool)
    (nx : ℕ) (hx : nx ≤ x.length) (hOs : Os.length < nx) :
    sr_func x Os Mr sh_rate true r_flag nx = none := by
  have hfail : shiftfunc x Os nx = none :=
    shiftLoop_fail Os nx 0 x (by omega) (by omega) (by omega)
  simp [sr_func, hfail]

/-- If the rotation flag is set, the earlier phases succeed, and the
matrix is shorter than `nx * nx` with `0 < nx`, then `sr_func` fails
with an out-of-range access. -/
theorem sr_func_rotate_fail (x Os Mr : List ℚ) (sh_rate : ℚ) (s_flag : Bool)
    (nx : ℕ) (hx : nx ≤ x.length) (hOs : s_flag = true → nx ≤ Os.length)
    (hMr : Mr.length < nx * nx) (hnx : 0 < nx) :
    sr_func x Os Mr sh_rate s_flag true nx = none := by
  obtain ⟨x1, hx1eq, hx1len, _, _⟩ :
      ∃ x1, (if s_flag then shiftfunc x Os nx else some x) = some x1 ∧
        x1.length = x.length ∧ (∀ m, nx ≤ m → x1[m]? = x[m]?) ∧
        (∀ m, m < nx →
          x1.getD m 0 = x.getD m 0 - if s_flag then Os.getD m 0 else 0) := by
    cases s_flag with
    | false => exact ⟨x, rfl, rfl, fun m _ => rfl, fun m _ => by simp⟩
    | true =>
      obtain ⟨y, hy, hylen, hout, hin⟩ :=
        shiftLoop_spec Os nx 0 x (by omega) (by simpa using hOs rfl)
      refine ⟨y, ?_, hylen, fun m hm => hout m (by omega), fun m hm => ?_⟩
      · simpa [shiftfunc] using hy
      · have := hin m (by omega) (by omega)
        simp [List.getD_eq_getElem?_getD, this]
  obtain ⟨x2, hx2eq, hx2len, _, _⟩ := scaleLoop_spec sh_rate nx 0 x1 (by omega)
  have hfail : rotatefunc x2 Mr nx = none := by
    unfold rotatefunc
    refine rotOuter_fail x2 Mr nx (by omega) nx 0 x2 (by omega) (by omega) ?_
    have hprod : (0 + nx) * nx = nx * nx := by ring
    omega
  simp only [sr_func, Option.bind_eq_bind, hx1eq, Option.some_bind,
    hx2eq, if_true]
  exact hfail

theorem shiftScaled_append (x t Os : List ℚ) (r : ℚ) (s : Bool) (j : ℕ)
    (hj : j < x.length) :
    shiftScaled (x ++ t) Os r s j = shiftScaled x Os r s j := by
  unfold shiftScaled
  rw [List.getD_eq_getElem?_getD, List.getElem?_append_left hj,
    ← List.getD_eq_getElem?_getD]

theorem rotatedCoord_append (x t Os Mr : List ℚ) (r : ℚ) (s : Bool)
    (nx i : ℕ) (hnx : nx ≤ x.length) :
    rotatedCoord (x ++ t) Os Mr r s nx i = rotatedCoord x Os Mr r s nx i := by
  unfold rotatedCoord
  refine Finset.sum_congr rfl ?_
  intro j hj
  rw [shiftScaled_append x t Os r s j (by
    have := Finset.mem_range.mp hj
    omega)]

/-- C2: `sr_func` applies exactly, in this fixed order: (1) when
`s_flag` is set, elementwise subtraction `x[i] := x[i] - Os[i]`;
(2) unconditional uniform scaling `x[i] := x[i] * sh_rate`; (3) when
`r_flag` is set, the matrix-vector product
`x[i] := ∑ j, (shifted-and-scaled x)[j] * Mr[i*nx + j]`, i.e. rotation
is applied last, to the pre-shift-scaled vector. -/
theorem sr_func_fixed_order (x Os Mr : List ℚ) (sh_rate : ℚ)
    (s_flag r_flag : Bool) (nx : ℕ)
    (hx : nx ≤ x.length) (hOs : nx ≤ Os.length) (hMr : nx * nx ≤ Mr.length) :
    ∃ y, sr_func x Os Mr sh_rate s_flag r_flag nx = some y ∧
      ∀ i, i < nx → y[i]? =
        some (if r_flag then
                ∑ j ∈ Finset.range nx,
                  ((x.getD j 0 - if s_flag then Os.getD j 0 else 0) * sh_rate) *
                    Mr.getD (i * nx + j) 0
              else (x.getD i 0 - if s_flag then Os.getD i 0 else 0) * sh_rate) := by
  obtain ⟨y, h1, _, h3, _⟩ :=
    sr_func_spec x Os Mr sh_rate s_flag r_flag nx hx (fun _ => hOs) (fun _ => hMr)
  exact ⟨y, h1, fun i hi => h3 i hi⟩

theorem sr_func_fixed_order_witness :
    2 ≤ ([1, 2, 5] : List ℚ).length ∧ 2 ≤ ([3, 4] : List ℚ).length ∧
    2 * 2 ≤ ([1, 0, 0, 1] : List ℚ).length ∧
    ∃ y, sr_func [1, 2, 5] [3, 4] [1, 0, 0, 1] 2 true true 2 = some y ∧
      ∀ i, i < 2 → y[i]? =
        some (if true then
                ∑ j ∈ Finset.range 2,
                  ((([1, 2, 5] : List ℚ).getD j 0 -
                      if true then ([3, 4] : List ℚ).getD j 0 else 0) * 2) *
                    ([1, 0, 0, 1] : List ℚ).getD (i * 2 + j) 0
              else (([1, 2, 5] : List ℚ).getD i 0 -
                      if true then ([3, 4] : List ℚ).getD i 0 else 0) * 2) :=
  ⟨by decide, by decide, by decide,
    sr_func_fixed_order [1, 2, 5] [3, 4] [1, 0, 0, 1] 2 true true 2
      (by decide) (by decide) (by decide)⟩

/-- C3: with the rotation flag off, `sr_func` is a strict identity with
respect to rotation: the result does not depend on the matrix argument
at all (the two sides are definitionally equal, no matrix multiply is
performed), and each of the first `nx` output coordinates is
`sh_rate * (x[i] - Os[i])` when `s_flag` is set and `sh_rate * x[i]`
otherwise. -/
theorem sr_func_rotation_flag_off (x Os Mr1 Mr2 : List ℚ) (sh_rate : ℚ)
    (s_flag : Bool) (nx : ℕ) (hx : nx ≤ x.length) (hOs : nx ≤ Os.length) :
    sr_func x Os Mr1 sh_rate s_flag false nx =
      sr_func x Os Mr2 sh_rate s_flag false nx ∧
    ∃ y, sr_func x Os Mr1 sh_rate s_flag false nx = some y ∧
      ∀ i, i < nx → y[i]? =
        some (sh_rate *
          (if s_flag then x.getD i 0 - Os.getD i 0 else x.getD i 0)) := by
  obtain ⟨y, h1, _, h3, _⟩ :=
    sr_func_spec x Os Mr1 sh_rate s_flag false nx hx (fun _ => hOs) (by simp)
  refine ⟨rfl, y, h1, ?_⟩
  intro i hi
  rw [h3 i hi]
  simp only [Bool.false_eq_true, if_false]
  congr 1
  unfold shiftScaled
  cases s_flag <;> simp [mul_comm]

theorem sr_func_rotation_flag_off_witness :
    2 ≤ ([1, 2, 5] : List ℚ).length ∧ 2 ≤ ([3, 4] : List ℚ).length ∧
    (sr_func [1, 2, 5] [3, 4] [9, 9, 9, 9] 2 true false 2 =
      sr_func [1, 2, 5] [3, 4] [7, 7, 7, 7] 2 true false 2 ∧
    ∃ y, sr_func [1, 2, 5] [3, 4] [9, 9, 9, 9] 2 true false 2 = some y ∧
      ∀ i, i < 2 → y[i]? =
        some (2 * (if true then
            ([1, 2, 5] : List ℚ).getD i 0 - ([3, 4] : List ℚ).getD i 0
          else ([1, 2, 5] : List ℚ).getD i 0))) :=
  ⟨by decide, by decide,
    sr_func_rotation_flag_off [1, 2, 5] [3, 4] [9, 9, 9, 9] [7, 7, 7, 7] 2
      true 2 (by decide) (by decide)⟩

/-- C10: the CEC transforms access all vectors through bounds-checked
indexing.  Under the precondition `nx ≤ x.length` (plus table lengths
matching the enabled flags) every access is in range and `sr_func`
returns a value whose trailing coordinates are those of `x`; if the
shift table or the matrix is shorter than required, the first
out-of-range access throws (`none`) rather than reading garbage; and
the transforms never read beyond index `nx - 1` of `x`: appending extra
trailing elements leaves the computation unchanged and carries the
extra elements through untouched. -/
theorem cec_transform_bounds_safety (x Os Mr t : List ℚ) (sh_rate : ℚ)
    (s_flag r_flag : Bool) (nx : ℕ) :
    (nx ≤ x.length → (s_flag = true → nx ≤ Os.length) →
      (r_flag = true → nx * nx ≤ Mr.length) →
      ∃ y, sr_func x Os Mr sh_rate s_flag r_flag nx = some y ∧
        y.length = x.length ∧ ∀ m, nx ≤ m → y[m]? = x[m]?) ∧
    (nx ≤ x.length → Os.length < nx →
      sr_func x Os Mr sh_rate true r_flag nx = none) ∧
    (nx ≤ x.length → (s_flag = true → nx ≤ Os.length) →
      Mr.length < nx * nx → 0 < nx →
      sr_func x Os Mr sh_rate s_flag true nx = none) ∧
    (x.length = nx → (s_flag = true → nx ≤ Os.length) →
      (r_flag = true → nx * nx ≤ Mr.length) →
      sr_func (x ++ t) Os Mr sh_rate s_flag r_flag nx =
        (sr_func x Os Mr sh_rate s_flag r_flag nx).map (fun y => y ++ t)) := by
  refine ⟨?_, ?_, ?_, ?_⟩
  · intro hx hOs hMr
    obtain ⟨y, h1, h2, _, h4⟩ :=
      sr_func_spec x Os Mr sh_rate s_flag r_flag nx hx hOs hMr
    exact ⟨y, h1, h2, h4⟩
  · intro hx hOs
    exact sr_func_shift_fail x Os Mr sh_rate r_flag nx hx hOs
  · intro hx hOs hMr hnx
    exact sr_func_rotate_fail x Os Mr sh_rate s_flag nx hx hOs hMr hnx
  · intro hx hOs hMr
    obtain ⟨y1, ha1, ha2, ha3, ha4⟩ :=
      sr_func_spec (x ++ t) Os Mr sh_rate s_flag r_flag nx
        (by simp [List.length_append]; omega) hOs hMr
    obtain ⟨y, hb1, hb2, hb3, hb4⟩ :=
      sr_func_spec x Os Mr sh_rate s_flag r_flag nx (by omega) hOs hMr
    rw [ha1, hb1]
    show some y1 = some (y ++ t)
    congr 1
    apply List.ext_getElem?
    intro m
    by_cases hm : m < nx
    · rw [ha3 m hm, List.getElem?_append_left (by omega), hb3 m hm]
      cases r_flag with
      | false =>
        simp only [Bool.false_eq_true, if_false]
        rw [shiftScaled_append x t Os sh_rate s_flag m (by omega)]
      | true =>
        simp only [if_true]
        rw [rotatedCoord_append x t Os Mr sh_rate s_flag nx m (by omega)]
    · rw [ha4 m (by omega), List.getElem?_append_right (by omega),
        List.getElem?_append_right (by omega), hb2, hx]

theorem cec_transform_bounds_safety_witness :
    2 ≤ ([1, 2, 5] : List ℚ).length ∧ ([3] : List ℚ).length < 2 ∧
    sr_func [1, 2, 5] [3] [1, 0, 0, 1] 2 true false 2 = none :=
  ⟨by decide, by decide,
    (cec_transform_bounds_safety [1, 2, 5] [3] [1, 0, 0, 1] [] 2 true false
        2).2.1 (by decide) (by decide)⟩

/-! ## Static-table loaders

A data file is modelled by the list of numeric tokens it contains
(`some file`), or `none` when the file could not be opened.  The C++
loaders print a `perror` message on open failure but keep going; reads
from the failed stream behave like an immediate EOF, so an unopenable
file is indistinguishable from an empty one for the rest of the
routine.  All three loaders return `void` in C++ and never throw: they
are total functions here. -/

/-- The shared read loop: for at most `size` iterations, stop at EOF
(`peek() == EOF`, i.e. the token list is exhausted) and otherwise
append the next token. -/
def loadLoop : ℕ → List ℚ → List ℚ → List ℚ
  | 0, _, acc => acc
  | k + 1, file, acc =>
    match file with
    | [] => acc
    | v :: rest => loadLoop k rest (acc ++ [v])

/-- C++ implicit `double`-to-`int` conversion (truncation toward zero),
used by `loadShuffleData` when pushing a `double` token into the
`std::vector<int>`. -/
def truncToInt (q : ℚ) : ℤ := q.num.tdiv q.den

/-- The read loop of `loadShuffleData`, which converts each token to
`int` on the way into the output vector. -/
def loadLoopInt : ℕ → List ℚ → List ℤ → List ℤ
  | 0, _, acc => acc
  | k + 1, file, acc =>
    match file with
    | [] => acc
    | v :: rest => loadLoopInt k rest (acc ++ [truncToInt v])

/-- The `cf_nums` table used by the 2015 branches.  The C++ code indexes
the raw 16-element array with `fn`; an index outside `[0, 16)` is
undefined behaviour there and is modelled by the `getD` default. -/
def cfNums : List ℤ := [0, 1, 1, 1, 1, 1, 1, 1, 1, 3, 3, 5, 5, 5, 7, 10]

/-- `(funcTreshold, coeff)` as computed by `loadMatrixData` for each
supported `cecVersion`. -/
def matrixParams (cec fn : ℤ) : ℤ × ℤ :=
  if cec = 2014 then (23, 10)
  else if cec = 2015 then (-1, cfNums.getD fn.toNat 0)
  else if cec = 2017 then (20, 10)
  else if cec = 2019 then (100, 1)
  else if cec = 2021 then (7, 10)
  else if cec = 2022 then (9, 12)
  else (-1, -1)

/-- `MatrixSize = fn < funcTreshold ? dim * dim : dim * dim * coeff`. -/
def matrixSize (dim fn cec : ℤ) : ℤ :=
  if fn < (matrixParams cec fn).1 then dim * dim
  else dim * dim * (matrixParams cec fn).2

/-- `CecUtils::loadMatrixData`: appends up to `MatrixSize` tokens from
the file to `Mr`; a short or unopenable file just stops the loop. -/
def loadMatrixData (Mr : List ℚ) (file : Option (List ℚ))
    (dim fn cec : ℤ) : List ℚ :=
  loadLoop (matrixSize dim fn cec).toNat (file.getD []) Mr

/-- `(funcTreshold, coeff)` as computed by `loadOShiftData`.  Unlike
`loadMatrixData`, `funcTreshold` is initialised to `0` and the 2015
branch does not assign it, and there is no 2021 branch at all. -/
def oShiftParams (cec fn : ℤ) : ℤ × ℤ :=
  if cec = 2014 then (23, 10)
  else if cec = 2015 then (0, cfNums.getD fn.toNat 0)
  else if cec = 2017 then (20, 10)
  else if cec = 2019 then (100, 1)
  else if cec = 2022 then (9, 12)
  else (-1, -1)

/-- `CecUtils::loadOShiftData`: only the `fn < funcTreshold` branch
reads anything; the composite-function branch is commented out in the
source, so for `fn >= funcTreshold` nothing is appended. -/
def loadOShiftData (Os : List ℚ) (file : Option (List ℚ))
    (dim fn cec : ℤ) : List ℚ :=
  let t := (oShiftParams cec fn).1
  let sz := if fn < t then dim else (oShiftParams cec fn).2 * dim
  if fn < t then loadLoop sz.toNat (file.getD []) Os else Os

/-- The `coeff` selected by `loadShuffleData`. -/
def shuffleCoeff (cec fn : ℤ) : ℤ :=
  if cec = 2014 ∨ cec = 2017 ∨ cec = 2019 ∨ cec = 2021 ∨ cec = 2022 then 10
  else if cec = 2015 then cfNums.getD fn.toNat 0
  else 0

/-- The `shuffleFlag` selected by `loadShuffleData`. -/
def shuffleFlag (cec fn : ℤ) : Bool :=
  if cec = 2014 then decide (17 ≤ fn ∧ fn ≤ 22)
  else if cec = 2015 then false
  else if cec = 2017 then decide (11 ≤ fn ∧ fn ≤ 20)
  else if cec = 2021 then decide (5 ≤ fn ∧ fn ≤ 7)
  else if cec = 2022 then decide (6 ≤ fn ∧ fn ≤ 8)
  else false

/-- `ShuffleSize = shuffleFlag ? dim : coeff * dim`. -/
def shuffleSize (dim fn cec : ℤ) : ℤ :=
  if shuffleFlag cec fn then dim else shuffleCoeff cec fn * dim

/-- `CecUtils::loadShuffleData`. -/
def loadShuffleData (SS : List ℤ) (file : Option (List ℚ))
    (dim fn cec : ℤ) : List ℤ :=
  loadLoopInt (shuffleSize dim fn cec).toNat (file.getD []) SS

theorem loadLoop_eq_take :
    ∀ (k : ℕ) (file acc : List ℚ), loadLoop k file acc = acc ++ file.take k := by
  intro k
  induction k with
  | zero => intro file acc; simp [loadLoop]
  | succ k ih =>
    intro file acc
    cases file with
    | nil => simp [loadLoop]
    | cons v rest => simp [loadLoop, ih]

theorem loadLoopInt_eq_take :
    ∀ (k : ℕ) (file : List ℚ) (acc : List ℤ),
    loadLoopInt k file acc = acc ++ (file.take k).map truncToInt := by
  intro k
  induction k with
  | zero => intro file acc; simp [loadLoopInt]
  | succ k ih =>
    intro file acc
    cases file with
    | nil => simp [loadLoopInt]
    | cons v rest => simp [loadLoopInt, ih]

/-- C4: each static-table loader (`loadMatrixData`, `loadShuffleData`,
and `loadOShiftData` in its `fn < funcTreshold` branch) appends to the
output vector exactly `min S m` values, where `S` is the expected
element count computed from `(dim, fn, cecVersion)` and `m` is the
number of values remaining in the file; a shorter file silently yields
a truncated table, and no error is raised (the loaders are total). -/
theorem load_table_truncation (Mr Os file : List ℚ) (SS : List ℤ)
    (dim fn cec : ℤ) :
    (loadMatrixData Mr (some file) dim fn cec).length =
      Mr.length + min (matrixSize dim fn cec).toNat file.length ∧
    (loadShuffleData SS (some file) dim fn cec).length =
      SS.length + min (shuffleSize dim fn cec).toNat file.length ∧
    (fn < (oShiftParams cec fn).1 →
      (loadOShiftData Os (some file) dim fn cec).length =
        Os.length + min dim.toNat file.length) := by
  refine ⟨?_, ?_, ?_⟩
  · rw [loadMatrixData, loadLoop_eq_take]
    simp [List.length_take]
  · rw [loadShuffleData, loadLoopInt_eq_take]
    simp [List.length_take]
  · intro h
    rw [loadOShiftData]
    simp only [if_pos h, Option.getD_some]
    rw [loadLoop_eq_take]
    simp [List.length_take]

theorem load_table_truncation_witness :
    ((1 : ℤ) < (oShiftParams 2022 1).1) ∧
    (loadMatrixData [] (some [7, 8, 9]) 2 1 2022).length =
      0 + min (matrixSize 2 1 2022).toNat 3 ∧
    (loadShuffleData [] (some [7, 8, 9]) 2 1 2022).length =
      0 + min (shuffleSize 2 1 2022).toNat 3 ∧
    (loadOShiftData [] (some [7, 8, 9]) 2 1 2022).length =
      0 + min (2 : ℤ).toNat 3 :=
  ⟨by decide,
    (load_table_truncation [] [] [7, 8, 9] [] 2 1 2022).1,
    (load_table_truncation [] [] [7, 8, 9] [] 2 1 2022).2.1,
    (load_table_truncation [] [] [7, 8, 9] [] 2 1 2022).2.2 (by decide)⟩

/-- C5 (divergence witness): with the data file missing (`none`), both
loaders return normally and append nothing, instead of signalling the
error to the caller — the caller receives an empty table and Problem
construction proceeds, contradicting the fail-fast policy of the
specification. -/
theorem loaders_swallow_missing_file :
    loadMatrixData [] none 2 1 2022 = [] ∧
    loadOShiftData [] none 2 1 2022 = [] ∧
    loadShuffleData [] none 2 1 2022 = [] := by
  refine ⟨?_, ?_, ?_⟩ <;> decide

/-- C9: for every `cecVersion` and every `fn` at or above the
`funcTreshold` used by `loadOShiftData`, the loader appends no elements
at all, regardless of the file's contents: the composite-function
branch is commented out in the source. -/
theorem loadOShiftData_composite_appends_nothing (Os : List ℚ)
    (file : Option (List ℚ)) (dim fn cec : ℤ)
    (h : (oShiftParams cec fn).1 ≤ fn) :
    loadOShiftData Os file dim fn cec = Os := by
  rw [loadOShiftData]
  simp only [if_neg (not_lt.mpr h)]

theorem loadOShiftData_composite_appends_nothing_witness :
    ((oShiftParams 2022 9).1 ≤ 9 ∧
      loadOShiftData [] (some [1, 2, 3, 4]) 2 9 2022 = []) ∧
    ((oShiftParams 2015 3).1 ≤ 3 ∧
      loadOShiftData [] (some [1, 2, 3, 4]) 2 3 2015 = []) :=
  ⟨⟨by decide,
      loadOShiftData_composite_appends_nothing [] (some [1, 2, 3, 4]) 2 9 2022
        (by decide)⟩,
    ⟨by decide,
      loadOShiftData_composite_appends_nothing [] (some [1, 2, 3, 4]) 2 3 2015
        (by decide)⟩⟩

/-! ## Per-function bias table -/

/-- The fixed `fnBiasDict` array of `CecUtils::getFunctionBias`. -/
def fnBiasDict : List ℚ :=
  [100, 1100, 700, 1900, 1700, 1600, 2100, 2200, 2400, 2500]

/-- `CecUtils::getFunctionBias(biasFlag, fnNumber)`.  The C++ code reads
`fnBiasDict[fnNumber - 1]` with a raw array index: an index outside
`[0, 10)` is undefined behaviour and is modelled by `none`. -/
def getFunctionBias (biasFlag fnNumber : ℤ) : Option ℚ :=
  if biasFlag ≠ 0 then
    if 1 ≤ fnNumber then fnBiasDict[(fnNumber - 1).toNat]? else none
  else some 0

/-- C6: the objective bias is looked up from a fixed per-function table
and is not derived from the instance number (note that
`getFunctionBias` does not even take an instance argument): for every
`fnNumber` in `[1, 10]`, a nonzero `biasFlag` yields the
`fnNumber`-th entry of `(100, 1100, 700, 1900, 1700, 1600, 2100, 2200,
2400, 2500)` and a zero `biasFlag` yields `0.0`. -/
theorem getFunctionBias_fixed_table (b fn : ℤ) (h1 : 1 ≤ fn) (h2 : fn ≤ 10) :
    (b ≠ 0 → getFunctionBias b fn =
      some (([100, 1100, 700, 1900, 1700, 1600, 2100, 2200, 2400, 2500] :
        List ℚ).getD (fn - 1).toNat 0)) ∧
    getFunctionBias 0 fn = some 0 := by
  constructor
  · intro hb
    rw [getFunctionBias, if_pos hb, if_pos h1]
    have hlt : (fn - 1).toNat < fnBiasDict.length := by
      simp only [fnBiasDict, List.length_cons, List.length_nil]
      omega
    rw [List.getElem?_eq_getElem hlt]
    congr 1
    rw [show ([100, 1100, 700, 1900, 1700, 1600, 2100, 2200, 2400, 2500] :
        List ℚ) = fnBiasDict from rfl]
    rw [List.getD_eq_getElem?_getD, List.getElem?_eq_getElem hlt]
    rfl
  · simp [getFunctionBias]

theorem getFunctionBias_fixed_table_witness :
    (1 : ℤ) ≤ 3 ∧ (3 : ℤ) ≤ 10 ∧
    (((5 : ℤ) ≠ 0 → getFunctionBias 5 3 =
      some (([100, 1100, 700, 1900, 1700, 1600, 2100, 2200, 2400, 2500] :
        List ℚ).getD ((3 : ℤ) - 1).toNat 0)) ∧
      getFunctionBias 0 3 = some 0) :=
  ⟨by decide, by decide, getFunctionBias_fixed_table 5 3 (by decide) (by decide)⟩

end CecUtils

namespace Server

/-! ## The query schema (`IOHquery`, JSON Schema draft-07)

The schema document has top-level keys `type: object`,
`properties: {query_type, if, then, id, timestamp, remarks}` and
`required: [query_type]`.  Note that `if:` and `then:` sit INSIDE
`properties:`, so under draft-07 semantics they are ordinary property
names (constraining instance members literally called "if" and
"then"), not the conditional applicator keywords; and the
`minItems: 1` of `solution` is nested inside `items`, where it
constrains each item, not the array.  The embedding below is the
draft-07 validation of the schema exactly as written. -/

/-- JSON values. -/
inductive Json where
  | null : Json
  | bool (b : Bool) : Json
  | num (q : ℚ) : Json
  | str (s : String) : Json
  | arr (items : List Json) : Json
  | obj (members : List (String × Json)) : Json

/-- First member with the given name, if any. -/
def lookupMem (ms : List (String × Json)) (k : String) : Option Json :=
  (ms.find? (fun p => p.1 == k)).map Prod.snd

/-- Draft-07 `properties` entry: the subschema applies only when the
member is present. -/
def propOk (ms : List (String × Json)) (k : String) (f : Json → Bool) : Bool :=
  match lookupMem ms k with
  | some v => f v
  | none => true

/-- Subschema of `query_type`: `{type: string, enum: [call, new_run,
stop]}`. -/
def validQueryType (j : Json) : Bool :=
  match j with
  | .str s => s == "call" || s == "new_run" || s == "stop"
  | _ => false

/-- `const: call` — the value must be exactly the string "call". -/
def isCallConst (j : Json) : Bool :=
  match j with
  | .str t => t == "call"
  | _ => false

/-- Subschema of the property literally named "if":
`{properties: {query_type: {const: call}}}` (applies only to objects
per draft-07; `properties` is vacuous on non-objects). -/
def validIfMember (j : Json) : Bool :=
  match j with
  | .obj ms => propOk ms "query_type" isCallConst
  | _ => true

/-- Item subschema of `solution`: `{type: number, minItems: 1}` — the
misplaced `minItems` applies only to arrays, and an array can never
also satisfy `type: number`, so it is vacuous. -/
def validSolutionItem (j : Json) : Bool :=
  match j with
  | .num _ => true
  | _ => false

/-- Subschema of `solution`: `{type: array, items: {type: number,
minItems: 1}}`. -/
def validSolution (j : Json) : Bool :=
  match j with
  | .arr xs => xs.all validSolutionItem
  | _ => false

/-- Subschema of the property literally named "then":
`{properties: {solution: ...}, required: [solution]}` (again, vacuous
on non-objects). -/
def validThenMember (j : Json) : Bool :=
  match j with
  | .obj ms =>
    (match lookupMem ms "solution" with
     | some v => validSolution v
     | none => false)
  | _ => true

/-- `{type: integer}`: a JSON number that is mathematically an
integer. -/
def validInteger (j : Json) : Bool :=
  match j with
  | .num q => q.den == 1
  | _ => false

/-- `{type: string}` (`format: date-time` is annotation-only in
draft-07). -/
def validString (j : Json) : Bool :=
  match j with
  | .str _ => true
  | _ => false

/-- Draft-07 validation of the `IOHquery` schema exactly as written:
the instance must be an object, must contain `query_type`, and each
present member among `query_type`, `if`, `then`, `id`, `timestamp`,
`remarks` must satisfy its `properties` subschema. -/
def queryAccepted (j : Json) : Bool :=
  match j with
  | .obj ms =>
    (lookupMem ms "query_type").isSome &&
    propOk ms "query_type" validQueryType &&
    propOk ms "if" validIfMember &&
    propOk ms "then" validThenMember &&
    propOk ms "id" validInteger &&
    propOk ms "timestamp" validString &&
    propOk ms "remarks" validString
  | _ => false

/-- C8 (divergence witness): because `if`/`then` sit inside
`properties`, the conditional requirement never fires: the minimal
`call` query with no `solution` member is ACCEPTED by the schema as
written, although the schema's own comments ("Require the solution
property") and the spec say it must be rejected as malformed.  The
other half of the claim does hold: a missing `query_type`, or one
outside the enumerated set, is rejected. -/
theorem query_schema_call_without_solution :
    queryAccepted (Json.obj [("query_type", Json.str "call")]) = true ∧
    queryAccepted (Json.obj [("query_type", Json.str "bogus")]) = false ∧
    queryAccepted (Json.obj [("solution", Json.arr [Json.num 1])]) = false := by
  refine ⟨?_, ?_, ?_⟩ <;> rfl

end Server

namespace PBO

/-! ## `LeadingOnesDummy2` (PBO suite)

The class body (`evaluate` and the constructor) is in the sources; the
`PBOProblem` base class, `utils::dummy`, `reset_transform_variables`
and `transform_objectives` are not under `src/` and are modelled from
the specification. -/

/-- The loop of `LeadingOnesDummy2::evaluate`: walk `info_` in order;
while `x[info_[i]] == 1` set `result = i + 1`, stop at the first other
value.  The C++ `x[info_[i]]` is a raw (unchecked) index, in range
under the dummy-mask invariant; it is modelled by `getD`. -/
def evaluateAux (x : List ℤ) : List ℕ → ℕ → ℚ → ℚ
  | [], _, result => result
  | p :: rest, i, result =>
    if x.getD p 0 = 1 then evaluateAux x rest (i + 1) ((i : ℚ) + 1) else result

/-- `LeadingOnesDummy2::evaluate(x)`. -/
def evaluate (info : List ℕ) (x : List ℤ) : ℚ := evaluateAux x info 0 0

/-- Modelled from the spec: the bit-level instance transform applied by
the `PBOProblem` evaluation scaffold (absent from `src/`); §4.1
describes a pure instance-seeded bit-level transform chain, modelled
here as flipping the bits selected by an instance-derived mask. -/
def transform_variables (mask : List Bool) (x : List ℤ) : List ℤ :=
  List.zipWith (fun m xi => if m then 1 - xi else xi) mask x

/-- Modelled from the spec: `reset_transform_variables` (absent from
`src/`) maps the untransformed optimum to the point whose transform is
that optimum — the inverse of `transform_variables`, which for the
involutive bit-flip is the same flip. -/
def reset_transform_variables (mask : List Bool) (x : List ℤ) : List ℤ :=
  transform_variables mask x

/-- Modelled from the spec: `transform_objectives` (absent from `src/`)
applies an instance-and-function-specific additive/multiplicative
bias. -/
def transform_objectives (scale offset y : ℚ) : ℚ := scale * y + offset

/-- The full evaluation pipeline of a constructed problem:
`y = transform_objectives(evaluate(transform_variables(x)))`
(spec §4.1). -/
def problemEval (mask : List Bool) (scale offset : ℚ) (info : List ℕ)
    (x : List ℤ) : ℚ :=
  transform_objectives scale offset (evaluate info (transform_variables mask x))

/-- The optimum computed by the `LeadingOnesDummy2` constructor:
`optimum_.x` is set to the all-ones vector, `optimum_.y` to
`evaluate(optimum_.x)`, then `reset_transform_variables` is applied to
`optimum_.x` and `transform_objectives` to `optimum_.y`. -/
def leadingOnesDummy2Optimum (mask : List Bool) (scale offset : ℚ)
    (info : List ℕ) (n : ℕ) : List ℤ × ℚ :=
  let x0 := List.replicate n (1 : ℤ)
  let y0 := evaluate info x0
  (reset_transform_variables mask x0, transform_objectives scale offset y0)

theorem transform_variables_involutive :
    ∀ (mask : List Bool) (x : List ℤ), x.length ≤ mask.length →
    transform_variables mask (transform_variables mask x) = x := by
  intro mask
  induction mask with
  | nil =>
    intro x hx
    have : x = [] := List.eq_nil_of_length_eq_zero (by simpa using hx)
    simp [this, transform_variables]
  | cons m ms ih =>
    intro x hx
    cases x with
    | nil => simp [transform_variables]
    | cons xi xs =>
      simp only [transform_variables, List.zipWith_cons_cons]
      congr 1
      · cases m <;> simp
      · exact ih xs (by simpa using hx)

/-- C1: the optimum stored by the `LeadingOnesDummy2` constructor is
self-consistent with evaluation: `optimum_.x` is
`reset_transform_variables` of the all-ones vector, `optimum_.y` is
`transform_objectives` of `evaluate` at the all-ones vector, and
running `optimum_.x` through the full evaluation pipeline (the exact
same transform chain used for arbitrary inputs) returns exactly
`optimum_.y`. -/
theorem leadingOnesDummy2_optimum_self_consistent (mask : List Bool)
    (scale offset : ℚ) (info : List ℕ) (n : ℕ) (hm : mask.length = n) :
    (leadingOnesDummy2Optimum mask scale offset info n).1 =
      reset_transform_variables mask (List.replicate n 1) ∧
    (leadingOnesDummy2Optimum mask scale offset info n).2 =
      transform_objectives scale offset (evaluate info (List.replicate n 1)) ∧
    problemEval mask scale offset info
        (leadingOnesDummy2Optimum mask scale offset info n).1 =
      (leadingOnesDummy2Optimum mask scale offset info n).2 := by
  refine ⟨rfl, rfl, ?_⟩
  show transform_objectives scale offset
      (evaluate info (transform_variables mask
        (transform_variables mask (List.replicate n 1)))) =
    transform_objectives scale offset (evaluate info (List.replicate n 1))
  rw [transform_variables_involutive mask (List.replicate n 1) (by simp [hm])]

theorem leadingOnesDummy2_optimum_self_consistent_witness :
    ([true, false, true] : List Bool).length = 3 ∧
    ((leadingOnesDummy2Optimum [true, false, true] 2 5 [0, 2] 3).1 =
      reset_transform_variables [true, false, true] (List.replicate 3 1) ∧
    (leadingOnesDummy2Optimum [true, false, true] 2 5 [0, 2] 3).2 =
      transform_objectives 2 5 (evaluate [0, 2] (List.replicate 3 1)) ∧
    problemEval [true, false, true] 2 5 [0, 2]
        (leadingOnesDummy2Optimum [true, false, true] 2 5 [0, 2] 3).1 =
      (leadingOnesDummy2Optimum [true, false, true] 2 5 [0, 2] 3).2) :=
  ⟨by decide,
    leadingOnesDummy2_optimum_self_consistent [true, false, true] 2 5 [0, 2] 3
      (by decide)⟩

end PBO

namespace Scale

/-! ## The EAH `Scale` discretization maps

The `Scale` implementation of the attainment-histogram logger is absent
from `src/` (only the `eah.pyi` type stubs are present, which give the
signatures: `bounds(i) -> Tuple[float, float]`, `index(v: float) ->
int`, with `min`/`max` typed `int` for the integer variants and
`float` for the real ones).  The behaviour below is modelled from the
specification (§4.3): linear buckets of width `(max - min) / size`; log
buckets whose boundaries grow geometrically from `min`, with the index
derived by taking the log of `(v - min + 1)` — "or an equivalent shift
ensuring a strictly positive argument", realised here by clamping the
input into `[min, max]` first — scaled to the bucket count and then
clamped to `[0, size - 1]`.  The integer variants constrain `min`,
`max` and all bucket boundaries to integers: the linear one uses the
integer stride `step() = (max - min) / size` (integer division — "the
integer stride actually used, which may differ from the ideal
real-valued stride due to rounding") in both `bounds` and `index`, and
the log ones round each geometric boundary up to an integer and define
`index` as a search over those very boundaries, the rounding policy
that is consistent between `bounds` and `index` by construction. -/

/-- Modelled from the spec: `Linear` scale,
`index(v) = clamp(floor((v - min) / w), 0, size - 1)` with
`w = (max - min) / size`. -/
noncomputable def linIndex (mn mx : ℝ) (size : ℕ) (v : ℝ) : ℕ :=
  min (size - 1) (⌊(v - mn) / ((mx - mn) / size)⌋).toNat

/-- Modelled from the spec: `Linear` scale, `bounds(i).lo = min + i*w`. -/
noncomputable def linLo (mn mx : ℝ) (size : ℕ) (i : ℕ) : ℝ :=
  mn + i * ((mx - mn) / size)

/-- Modelled from the spec: logarithmic scale with base `b`:
`index(v)` takes the log of the positively-shifted clamped input,
scales it to the bucket count, floors and clamps. -/
noncomputable def logIndex (b mn mx : ℝ) (size : ℕ) (v : ℝ) : ℕ :=
  min (size - 1)
    (⌊Real.logb b (max mn (min v mx) - mn + 1) * size /
        Real.logb b (mx - mn + 1)⌋).toNat

/-- Modelled from the spec: logarithmic scale with base `b`: bucket
boundaries grow geometrically from `min`;
`bounds(i).lo = min + b^(i * logb b (max - min + 1) / size) - 1`. -/
noncomputable def logLo (b mn mx : ℝ) (size : ℕ) (i : ℕ) : ℝ :=
  mn + b ^ (((i : ℝ) * Real.logb b (mx - mn + 1)) / size) - 1

/-- `Log2RealScale.index`. -/
noncomputable def log2Index (mn mx : ℝ) (size : ℕ) : ℝ → ℕ :=
  logIndex 2 mn mx size

/-- `Log2RealScale.bounds(i).lo`. -/
noncomputable def log2Lo (mn mx : ℝ) (size : ℕ) : ℕ → ℝ :=
  logLo 2 mn mx size

/-- `Log10RealScale.index`. -/
noncomputable def log10Index (mn mx : ℝ) (size : ℕ) : ℝ → ℕ :=
  logIndex 10 mn mx size

/-- `Log10RealScale.bounds(i).lo`. -/
noncomputable def log10Lo (mn mx : ℝ) (size : ℕ) : ℕ → ℝ :=
  logLo 10 mn mx size

/-- Modelled from the spec: `LinearIntegerScale.step()`, the integer
stride actually used, obtained from the ideal real-valued stride by
rounding (integer division of the range by the bucket count). -/
def linStepInt (a c : ℤ) (size : ℕ) : ℤ := (c - a) / (size : ℤ)

/-- Modelled from the spec: `LinearIntegerScale.bounds(i).lo`, an
integer bucket boundary built from the integer stride:
`min + i * step()`. -/
def linLoInt (a c : ℤ) (size : ℕ) (i : ℕ) : ℤ :=
  a + i * linStepInt a c size

/-- Modelled from the spec: `LinearIntegerScale.index`, the linear
formula `clamp(floor((v - min) / w), 0, size - 1)` instantiated with
the SAME integer stride `step()` that `bounds` uses — the rounding
policy consistent between `bounds` and `index`. -/
noncomputable def linIndexInt (a c : ℤ) (size : ℕ) (v : ℝ) : ℕ :=
  min (size - 1) (⌊(v - (a : ℝ)) / ((linStepInt a c size : ℤ) : ℝ)⌋).toNat

/-- The index map induced by a family of integer bucket boundaries:
the largest bin whose lower boundary does not exceed `v`, clamped to
`[0, size - 1]` (an empty set of candidates clamps to bin `0`, all
boundaries below `v` clamps to bin `size - 1`).  An integer boundary
lies below the real input `v` exactly when it lies below `⌊v⌋`.  This
`index` is computed from the very same rounded boundaries that
`bounds` reports, so the rounding policy is consistent between the
two by construction. -/
noncomputable def searchIdx (B : ℕ → ℤ) (size : ℕ) (v : ℝ) : ℕ :=
  ((Finset.range size).filter (fun i => B i ≤ ⌊v⌋)).card - 1

/-- Modelled from the spec: the integer log-scale bucket boundary,
the geometric boundary of the real variant rounded up to an integer:
`min + ceil(b^(i * logb b (max - min + 1) / size)) - 1`.  For `i = 0`
this is exactly `min`, and rounding up keeps every boundary within
`[min, max]`. -/
noncomputable def logLoInt (b : ℝ) (a c : ℤ) (size : ℕ) (i : ℕ) : ℤ :=
  a + ⌈b ^ (((i : ℝ) * Real.logb b ((c : ℝ) - (a : ℝ) + 1)) / size)⌉ - 1

/-- Modelled from the spec: the integer log-scale index, the search
over the rounded integer boundaries. -/
noncomputable def logIndexInt (b : ℝ) (a c : ℤ) (size : ℕ) (v : ℝ) : ℕ :=
  searchIdx (logLoInt b a c size) size v

/-- `Log2IntegerScale.bounds(i).lo`. -/
noncomputable def log2LoInt (a c : ℤ) (size : ℕ) : ℕ → ℤ :=
  logLoInt 2 a c size

/-- `Log2IntegerScale.index`. -/
noncomputable def log2IndexInt (a c : ℤ) (size : ℕ) : ℝ → ℕ :=
  logIndexInt 2 a c size

/-- `Log10IntegerScale.bounds(i).lo`. -/
noncomputable def log10LoInt (a c : ℤ) (size : ℕ) : ℕ → ℤ :=
  logLoInt 10 a c size

/-- `Log10IntegerScale.index`. -/
noncomputable def log10IndexInt (a c : ℤ) (size : ℕ) : ℝ → ℕ :=
  logIndexInt 10 a c size

theorem linIndex_roundtrip (mn mx : ℝ) (size : ℕ) (hs : 0 < size)
    (hr : mn < mx) : ∀ i, i < size →
    linIndex mn mx size (linLo mn mx size i) = i := by
  intro i hi
  have hsz : (0 : ℝ) < size := by exact_mod_cast hs
  have hw : 0 < (mx - mn) / size := div_pos (by linarith) hsz
  unfold linIndex linLo
  have h1 : mn + i * ((mx - mn) / size) - mn = (i : ℝ) * ((mx - mn) / size) := by
    ring
  rw [h1, mul_div_cancel_right₀ _ (ne_of_gt hw), Int.floor_natCast]
  simp only [Int.toNat_ofNat]
  omega

theorem linIndex_monotone (mn mx : ℝ) (size : ℕ) (hr : mn < mx) :
    Monotone (linIndex mn mx size) := by
  intro v1 v2 hv
  unfold linIndex
  refine min_le_min (le_refl _) (Int.toNat_le_toNat (Int.floor_mono ?_))
  rcases eq_or_lt_of_le
      (div_nonneg (by linarith : (0 : ℝ) ≤ mx - mn) (Nat.cast_nonneg size)) with
    hw | hw
  · rw [← hw, div_zero, div_zero]
  · exact (div_le_div_iff_of_pos_right hw).mpr (by linarith)

theorem linIndex_lt (mn mx : ℝ) (size : ℕ) (hs : 0 < size) :
    ∀ v, linIndex mn mx size v < size := by
  intro v
  have h := Nat.min_le_left (size - 1)
    (⌊(v - mn) / ((mx - mn) / size)⌋).toNat
  unfold linIndex
  omega

theorem logLo_mem (b mn mx : ℝ) (size : ℕ) (hb : 1 < b) (hs : 0 < size)
    (hr : mn < mx) (i : ℕ) (hi : i < size) :
    mn ≤ logLo b mn mx size i ∧ logLo b mn mx size i ≤ mx := by
  have hb0 : (0 : ℝ) < b := by linarith
  have hbne : b ≠ 1 := ne_of_gt hb
  have hL : 0 < Real.logb b (mx - mn + 1) := Real.logb_pos hb (by linarith)
  have hsz : (0 : ℝ) < size := by exact_mod_cast hs
  constructor
  · have h0 : b ^ (0 : ℝ) ≤ b ^ (((i : ℝ) * Real.logb b (mx - mn + 1)) / size) := by
      rw [Real.rpow_le_rpow_left_iff hb]
      positivity
    rw [Real.rpow_zero] at h0
    unfold logLo
    linarith
  · have hexp : ((i : ℝ) * Real.logb b (mx - mn + 1)) / size <
        Real.logb b (mx - mn + 1) := by
      rw [div_lt_iff₀ hsz]
      have hic : (i : ℝ) < size := by exact_mod_cast hi
      nlinarith
    have hlt : b ^ (((i : ℝ) * Real.logb b (mx - mn + 1)) / size) <
        b ^ Real.logb b (mx - mn + 1) := by
      rw [Real.rpow_lt_rpow_left_iff hb]
      exact hexp
    rw [Real.rpow_logb hb0 hbne (by linarith : (0 : ℝ) < mx - mn + 1)] at hlt
    unfold logLo
    linarith

theorem logIndex_roundtrip (b mn mx : ℝ) (size : ℕ) (hb : 1 < b)
    (hs : 0 < size) (hr : mn < mx) : ∀ i, i < size →
    logIndex b mn mx size (logLo b mn mx size i) = i := by
  intro i hi
  have hb0 : (0 : ℝ) < b := by linarith
  have hbne : b ≠ 1 := ne_of_gt hb
  have hL : 0 < Real.logb b (mx - mn + 1) := Real.logb_pos hb (by linarith)
  have hsz : (0 : ℝ) < size := by exact_mod_cast hs
  obtain ⟨hlo, hhi⟩ := logLo_mem b mn mx size hb hs hr i hi
  unfold logIndex
  rw [min_eq_left hhi, max_eq_right hlo]
  have harg : logLo b mn mx size i - mn + 1 =
      b ^ (((i : ℝ) * Real.logb b (mx - mn + 1)) / size) := by
    unfold logLo
    ring
  rw [harg, Real.logb_rpow hb0 hbne]
  have hid : ((i : ℝ) * Real.logb b (mx - mn + 1)) / size * size /
      Real.logb b (mx - mn + 1) = (i : ℝ) := by
    field_simp
  rw [hid, Int.floor_natCast]
  simp only [Int.toNat_ofNat]
  omega

theorem logIndex_monotone (b mn mx : ℝ) (size : ℕ) (hb : 1 < b)
    (hr : mn < mx) : Monotone (logIndex b mn mx size) := by
  intro v1 v2 hv
  unfold logIndex
  refine min_le_min (le_refl _) (Int.toNat_le_toNat (Int.floor_mono ?_))
  have hL : 0 < Real.logb b (mx - mn + 1) := Real.logb_pos hb (by linarith)
  have hclamp : max mn (min v1 mx) ≤ max mn (min v2 mx) :=
    max_le_max (le_refl _) (min_le_min hv (le_refl _))
  have hpos : 0 < max mn (min v1 mx) - mn + 1 := by
    have := le_max_left mn (min v1 mx)
    linarith
  have hlog : Real.logb b (max mn (min v1 mx) - mn + 1) ≤
      Real.logb b (max mn (min v2 mx) - mn + 1) :=
    Real.logb_le_logb_of_le hb hpos (by linarith)
  exact (div_le_div_iff_of_pos_right hL).mpr
    (mul_le_mul_of_nonneg_right hlog (Nat.cast_nonneg size))

theorem logIndex_lt (b mn mx : ℝ) (size : ℕ) (hs : 0 < size) :
    ∀ v, logIndex b mn mx size v < size := by
  intro v
  have h := Nat.min_le_left (size - 1)
    (⌊Real.logb b (max mn (min v mx) - mn + 1) * size /
        Real.logb b (mx - mn + 1)⌋).toNat
  unfold logIndex
  omega

theorem searchIdx_lt (B : ℕ → ℤ) (size : ℕ) (hs : 0 < size) :
    ∀ v, searchIdx B size v < size := by
  intro v
  have h : ((Finset.range size).filter (fun i => B i ≤ ⌊v⌋)).card ≤ size := by
    calc ((Finset.range size).filter (fun i => B i ≤ ⌊v⌋)).card
        ≤ (Finset.range size).card := Finset.card_filter_le _ _
    _ = size := Finset.card_range size
  unfold searchIdx
  omega

theorem searchIdx_monotone (B : ℕ → ℤ) (size : ℕ) :
    Monotone (searchIdx B size) := by
  intro v1 v2 hv
  unfold searchIdx
  have hsub : (Finset.range size).filter (fun i => B i ≤ ⌊v1⌋) ⊆
      (Finset.range size).filter (fun i => B i ≤ ⌊v2⌋) :=
    Finset.monotone_filter_right (Finset.range size)
      (fun i hi => le_trans hi (Int.floor_mono hv))
  have := Finset.card_le_card hsub
  omega

theorem searchIdx_roundtrip (B : ℕ → ℤ) (size : ℕ)
    (hstrict : ∀ i j, i < j → j < size → B i < B j) :
    ∀ i, i < size → searchIdx B size ((B i : ℤ) : ℝ) = i := by
  intro i hi
  unfold searchIdx
  rw [Int.floor_intCast]
  have hset : (Finset.range size).filter (fun i2 => B i2 ≤ B i) =
      Finset.range (i + 1) := by
    ext i2
    simp only [Finset.mem_filter, Finset.mem_range]
    constructor
    · rintro ⟨h1, h2⟩
      by_contra hcon
      push_neg at hcon
      exact absurd h2 (not_le.mpr (hstrict i i2 (by omega) h1))
    · intro h2
      refine ⟨by omega, ?_⟩
      rcases Nat.lt_or_ge i2 i with hlt | hge
      · exact le_of_lt (hstrict i2 i hlt hi)
      · have heq : i2 = i := by omega
        rw [heq]
  rw [hset, Finset.card_range]
  omega

theorem linIndexInt_roundtrip (a c : ℤ) (size : ℕ) (hs : 0 < size)
    (hw : (size : ℤ) ≤ c - a) : ∀ i, i < size →
    linIndexInt a c size ((linLoInt a c size i : ℤ) : ℝ) = i := by
  intro i hi
  have hstep : 1 ≤ linStepInt a c size := by
    unfold linStepInt
    rw [Int.le_ediv_iff_mul_le (by exact_mod_cast hs)]
    omega
  have hstepR : (0 : ℝ) < ((linStepInt a c size : ℤ) : ℝ) := by
    have h0 : (0 : ℤ) < linStepInt a c size := by omega
    exact_mod_cast h0
  unfold linIndexInt linLoInt
  have h1 : ((a + (i : ℤ) * linStepInt a c size : ℤ) : ℝ) - (a : ℝ) =
      ((i : ℕ) : ℝ) * ((linStepInt a c size : ℤ) : ℝ) := by
    push_cast
    ring
  rw [h1, mul_div_cancel_right₀ _ (ne_of_gt hstepR), Int.floor_natCast]
  simp only [Int.toNat_ofNat]
  omega

theorem linIndexInt_monotone (a c : ℤ) (size : ℕ) (hac : a < c) :
    Monotone (linIndexInt a c size) := by
  intro v1 v2 hv
  unfold linIndexInt
  refine min_le_min (le_refl _) (Int.toNat_le_toNat (Int.floor_mono ?_))
  have hnn : (0 : ℤ) ≤ linStepInt a c size :=
    Int.ediv_nonneg (by omega) (by omega)
  rcases eq_or_lt_of_le hnn with hz | hpos
  · rw [← hz]
    simp
  · have hposR : (0 : ℝ) < ((linStepInt a c size : ℤ) : ℝ) := by
      exact_mod_cast hpos
    exact (div_le_div_iff_of_pos_right hposR).mpr (by linarith)

theorem linIndexInt_lt (a c : ℤ) (size : ℕ) (hs : 0 < size) :
    ∀ v, linIndexInt a c size v < size := by
  intro v
  have h := Nat.min_le_left (size - 1)
    (⌊(v - (a : ℝ)) / ((linStepInt a c size : ℤ) : ℝ)⌋).toNat
  unfold linIndexInt
  omega

/-- With the integer range wide enough (`2^size ≤ max - min + 1`, i.e.
the geometric growth factor per bucket is at least 2), the rounded-up
integer log boundaries remain strictly increasing. -/
theorem logLoInt_strictMono (b : ℝ) (a c : ℤ) (size : ℕ) (hb : 1 < b)
    (hs : 0 < size) (hbig : (2 : ℤ) ^ size ≤ c - a + 1) :
    ∀ i j, i < j → j < size →
    logLoInt b a c size i < logLoInt b a c size j := by
  intro i j hij hj
  have hb0 : (0 : ℝ) < b := by linarith
  have hbne : b ≠ 1 := ne_of_gt hb
  have hsz : (0 : ℝ) < size := by exact_mod_cast hs
  have hRbig : (2 : ℝ) ^ size ≤ (c : ℝ) - (a : ℝ) + 1 := by
    exact_mod_cast hbig
  have hR1 : (1 : ℝ) < (c : ℝ) - (a : ℝ) + 1 :=
    lt_of_lt_of_le (one_lt_pow₀ (by norm_num) (by omega)) hRbig
  have hL : 0 < Real.logb b ((c : ℝ) - (a : ℝ) + 1) := Real.logb_pos hb hR1
  have hkey : (2 : ℝ) ≤ b ^ (Real.logb b ((c : ℝ) - (a : ℝ) + 1) / size) := by
    by_contra hcon
    push_neg at hcon
    have hbase : (0 : ℝ) < b ^ (Real.logb b ((c : ℝ) - (a : ℝ) + 1) / size) :=
      Real.rpow_pos_of_pos hb0 _
    have hpow : (b ^ (Real.logb b ((c : ℝ) - (a : ℝ) + 1) / size)) ^ size <
        (2 : ℝ) ^ size :=
      pow_lt_pow_left₀ hcon hbase.le (by omega)
    have heq : (b ^ (Real.logb b ((c : ℝ) - (a : ℝ) + 1) / size)) ^ size =
        (c : ℝ) - (a : ℝ) + 1 := by
      rw [← Real.rpow_natCast
            (b ^ (Real.logb b ((c : ℝ) - (a : ℝ) + 1) / size)) size,
          ← Real.rpow_mul hb0.le, div_mul_cancel₀ _ (ne_of_gt hsz)]
      exact Real.rpow_logb hb0 hbne (by linarith)
    rw [heq] at hpow
    linarith
  have hei : (0 : ℝ) ≤
      (i : ℝ) * Real.logb b ((c : ℝ) - (a : ℝ) + 1) / size := by positivity
  have h1 : (1 : ℝ) ≤
      b ^ ((i : ℝ) * Real.logb b ((c : ℝ) - (a : ℝ) + 1) / size) := by
    rw [show (1 : ℝ) = b ^ (0 : ℝ) from (Real.rpow_zero b).symm]
    rw [Real.rpow_le_rpow_left_iff hb]
    rw [Real.rpow_zero]
    exact hei
  have hposi : (0 : ℝ) <
      b ^ ((i : ℝ) * Real.logb b ((c : ℝ) - (a : ℝ) + 1) / size) :=
    Real.rpow_pos_of_pos hb0 _
  have hstep2 : b ^ ((i : ℝ) * Real.logb b ((c : ℝ) - (a : ℝ) + 1) / size) + 1 ≤
      b ^ ((j : ℝ) * Real.logb b ((c : ℝ) - (a : ℝ) + 1) / size) := by
    have hij1 : (i : ℝ) + 1 ≤ (j : ℝ) := by exact_mod_cast hij
    calc b ^ ((i : ℝ) * Real.logb b ((c : ℝ) - (a : ℝ) + 1) / size) + 1
        ≤ b ^ ((i : ℝ) * Real.logb b ((c : ℝ) - (a : ℝ) + 1) / size) +
          b ^ ((i : ℝ) * Real.logb b ((c : ℝ) - (a : ℝ) + 1) / size) := by
          linarith
    _ = 2 * b ^ ((i : ℝ) * Real.logb b ((c : ℝ) - (a : ℝ) + 1) / size) := by
          ring
    _ ≤ b ^ (Real.logb b ((c : ℝ) - (a : ℝ) + 1) / size) *
          b ^ ((i : ℝ) * Real.logb b ((c : ℝ) - (a : ℝ) + 1) / size) :=
          mul_le_mul_of_nonneg_right hkey hposi.le
    _ = b ^ ((i : ℝ) * Real.logb b ((c : ℝ) - (a : ℝ) + 1) / size +
          Real.logb b ((c : ℝ) - (a : ℝ) + 1) / size) := by
          rw [Real.rpow_add hb0]
          ring
    _ ≤ b ^ ((j : ℝ) * Real.logb b ((c : ℝ) - (a : ℝ) + 1) / size) := by
          rw [Real.rpow_le_rpow_left_iff hb, div_add_div_same]
          exact (div_le_div_iff_of_pos_right hsz).mpr (by nlinarith)
  have hceil :
      ⌈b ^ ((i : ℝ) * Real.logb b ((c : ℝ) - (a : ℝ) + 1) / size)⌉ <
      ⌈b ^ ((j : ℝ) * Real.logb b ((c : ℝ) - (a : ℝ) + 1) / size)⌉ := by
    have h2 := Int.ceil_mono hstep2
    rw [Int.ceil_add_one] at h2
    omega
  unfold logLoInt
  omega

/-- C7 (counterexample): the integer Scale variants constrain all
bucket boundaries to integers, so when the bins outnumber the
integers in range the boundaries must collide and the round-trip
property fails: for the linear integer scale with `min = 0`,
`max = 2`, `size = 4`, the integer stride is `0`, bins `0` and `1`
share the lower boundary `0`, and `index(bounds(1).lo) = 0 ≠ 1`. -/
theorem scale_integer_roundtrip_counterexample :
    linLoInt 0 2 4 1 = linLoInt 0 2 4 0 ∧
    linIndexInt 0 2 4 ((linLoInt 0 2 4 1 : ℤ) : ℝ) = 0 := by
  constructor
  · decide
  · have h1 : linLoInt 0 2 4 1 = 0 := by decide
    have h2 : linStepInt 0 2 4 = 0 := by decide
    rw [h1]
    unfold linIndexInt
    rw [h2]
    norm_num

/-- C7 (amended): for the real-domain Scale variants (linear, log2,
log10) the round-trip `index(bounds(i).lo) = i` holds for every bin
`i` in `[0, size)`, and `index` is monotone non-decreasing and clamps
every input to `[0, size - 1]`.  For the integer-domain variants —
whose bucket boundaries are integers produced by a rounding policy
shared between `bounds` and `index`, with `step()` the integer stride
actually used — monotonicity and clamping hold unconditionally, and
the round-trip holds provided the integer range is wide enough for
the rounded boundaries to stay distinct: `size ≤ max - min` for the
linear variant and `2^size ≤ max - min + 1` for the log variants;
with a narrower range the rounded boundaries collide and the
round-trip necessarily fails (see the counterexample). -/
theorem scale_index_bounds_roundtrip (mn mx : ℝ) (a c : ℤ) (size : ℕ)
    (hs : 0 < size) (hr : mn < mx) (hac : a < c) :
    ((∀ i, i < size → linIndex mn mx size (linLo mn mx size i) = i) ∧
      Monotone (linIndex mn mx size) ∧
      (∀ v, linIndex mn mx size v < size)) ∧
    ((∀ i, i < size → log2Index mn mx size (log2Lo mn mx size i) = i) ∧
      Monotone (log2Index mn mx size) ∧
      (∀ v, log2Index mn mx size v < size)) ∧
    ((∀ i, i < size → log10Index mn mx size (log10Lo mn mx size i) = i) ∧
      Monotone (log10Index mn mx size) ∧
      (∀ v, log10Index mn mx size v < size)) ∧
    (((size : ℤ) ≤ c - a → ∀ i, i < size →
        linIndexInt a c size ((linLoInt a c size i : ℤ) : ℝ) = i) ∧
      Monotone (linIndexInt a c size) ∧
      (∀ v, linIndexInt a c size v < size)) ∧
    (((2 : ℤ) ^ size ≤ c - a + 1 → ∀ i, i < size →
        log2IndexInt a c size ((log2LoInt a c size i : ℤ) : ℝ) = i) ∧
      Monotone (log2IndexInt a c size) ∧
      (∀ v, log2IndexInt a c size v < size)) ∧
    (((2 : ℤ) ^ size ≤ c - a + 1 → ∀ i, i < size →
        log10IndexInt a c size ((log10LoInt a c size i : ℤ) : ℝ) = i) ∧
      Monotone (log10IndexInt a c size) ∧
      (∀ v, log10IndexInt a c size v < size)) := by
  refine ⟨⟨?_, ?_, ?_⟩, ⟨?_, ?_, ?_⟩, ⟨?_, ?_, ?_⟩,
    ⟨?_, ?_, ?_⟩, ⟨?_, ?_, ?_⟩, ⟨?_, ?_, ?_⟩⟩
  · exact linIndex_roundtrip mn mx size hs hr
  · exact linIndex_monotone mn mx size hr
  · exact linIndex_lt mn mx size hs
  · exact logIndex_roundtrip 2 mn mx size (by norm_num) hs hr
  · exact logIndex_monotone 2 mn mx size (by norm_num) hr
  · exact logIndex_lt 2 mn mx size hs
  · exact logIndex_roundtrip 10 mn mx size (by norm_num) hs hr
  · exact logIndex_monotone 10 mn mx size (by norm_num) hr
  · exact logIndex_lt 10 mn mx size hs
  · exact fun hw => linIndexInt_roundtrip a c size hs hw
  · exact linIndexInt_monotone a c size hac
  · exact linIndexInt_lt a c size hs
  · exact fun hbig => searchIdx_roundtrip (log2LoInt a c size) size
      (logLoInt_strictMono 2 a c size (by norm_num) hs hbig)
  · exact searchIdx_monotone (log2LoInt a c size) size
  · exact fun v => searchIdx_lt (log2LoInt a c size) size hs v
  · exact fun hbig => searchIdx_roundtrip (log10LoInt a c size) size
      (logLoInt_strictMono 10 a c size (by norm_num) hs hbig)
  · exact searchIdx_monotone (log10LoInt a c size) size
  · exact fun v => searchIdx_lt (log10LoInt a c size) size hs v

theorem scale_index_bounds_roundtrip_witness :
    0 < 10 ∧ (0 : ℝ) < 100 ∧ (0 : ℤ) < 1024 ∧
    ((10 : ℕ) : ℤ) ≤ 1024 - 0 ∧ (2 : ℤ) ^ 10 ≤ 1024 - 0 + 1 ∧
    (((∀ i, i < 10 → linIndex 0 100 10 (linLo 0 100 10 i) = i) ∧
      Monotone (linIndex 0 100 10) ∧ (∀ v, linIndex 0 100 10 v < 10)) ∧
    ((∀ i, i < 10 → log2Index 0 100 10 (log2Lo 0 100 10 i) = i) ∧
      Monotone (log2Index 0 100 10) ∧ (∀ v, log2Index 0 100 10 v < 10)) ∧
    ((∀ i, i < 10 → log10Index 0 100 10 (log10Lo 0 100 10 i) = i) ∧
      Monotone (log10Index 0 100 10) ∧ (∀ v, log10Index 0 100 10 v < 10)) ∧
    ((((10 : ℕ) : ℤ) ≤ 1024 - 0 → ∀ i, i < 10 →
        linIndexInt 0 1024 10 ((linLoInt 0 1024 10 i : ℤ) : ℝ) = i) ∧
      Monotone (linIndexInt 0 1024 10) ∧
      (∀ v, linIndexInt 0 1024 10 v < 10)) ∧
    (((2 : ℤ) ^ 10 ≤ 1024 - 0 + 1 → ∀ i, i < 10 →
        log2IndexInt 0 1024 10 ((log2LoInt 0 1024 10 i : ℤ) : ℝ) = i) ∧
      Monotone (log2IndexInt 0 1024 10) ∧
      (∀ v, log2IndexInt 0 1024 10 v < 10)) ∧
    (((2 : ℤ) ^ 10 ≤ 1024 - 0 + 1 → ∀ i, i < 10 →
        log10IndexInt 0 1024 10 ((log10LoInt 0 1024 10 i : ℤ) : ℝ) = i) ∧
      Monotone (log10IndexInt 0 1024 10) ∧
      (∀ v, log10IndexInt 0 1024 10 v < 10))) :=
  ⟨by decide, by norm_num, by decide, by decide, by decide,
    scale_index_bounds_roundtrip 0 100 0 1024 10 (by decide) (by norm_num)
      (by decide)⟩

end Scale

end IOHExp
